import Mathlib

/-!
# Verification of the CLI todo-list task engine

A shallow embedding of the task-collection engine of the `cli-todo`
repository (`main.go` models plus the interactive-mode undo tracker of
`cli.go`), together with proofs of the specification claims about it.

Timestamps (`time.Time`) are modelled as integers ordered chronologically;
Go strings are modelled as Lean strings (both compare lexicographically by
code point, which agrees with Go's byte-wise comparison on UTF-8).
-/

/-- `time.Time` values, abstracted to their chronological order. -/
abbrev GoTime : Type := Int

/-- Go's `strings.ToLower`, mapping each character to lowercase. -/
def strToLower (s : String) : String := String.mk (s.data.map Char.toLower)

/-- Lexicographic comparison of character sequences, the order Go uses for
`<` on strings (byte-wise lexicographic agrees with code-point-wise on
UTF-8). -/
def charListLt : List Char → List Char → Bool
  | [], [] => false
  | [], _ :: _ => true
  | _ :: _, [] => false
  | a :: as, b :: bs => if a < b then true else if b < a then false else charListLt as bs

/-- Go's `<` on strings. -/
def strLt (a b : String) : Bool := charListLt a.data b.data

/-- One task item, mirroring `Todo` in `main.go`: unique identifier, task
description, completion flag, creation timestamp, priority string, optional
due date and tag list. -/
structure Todo where
  ID : Int
  Task : String
  Completed : Bool
  CreatedAt : GoTime
  Priority : String
  DueDate : Option GoTime
  Tags : List String
deriving DecidableEq

/-- The task collection, mirroring `TodoList` in `main.go`: the ordered
record sequence plus the next-identifier counter. -/
structure TodoList where
  Todos : List Todo
  NextID : Int
deriving DecidableEq

/-- `NewTodoList`: the empty collection with counter 1. -/
def NewTodoList : TodoList := { Todos := [], NextID := 1 }

/-- `toCanonicalPriority`: case-insensitive lookup of the canonical priority
string; unknown input maps to the empty string. -/
def toCanonicalPriority (p : String) : String :=
  match strToLower p with
  | "high" => "high"
  | "medium" => "medium"
  | "low" => "low"
  | _ => ""

/-- `isValidPriority`: the three canonical priority levels. -/
def isValidPriority (p : String) : Bool :=
  p == "high" || p == "medium" || p == "low"

/-- `TodoList.Add`: canonicalize the priority (invalid input falls back to
`"medium"`), append a fresh incomplete record carrying `NextID`, then bump
the counter.  `now` stands for the `time.Now()` call. -/
def TodoList.Add (tl : TodoList) (task : String) (priority : String)
    (dueDate : Option GoTime) (tags : List String) (now : GoTime) : TodoList :=
  let canonical := toCanonicalPriority priority
  let canonical := if isValidPriority canonical then canonical else "medium"
  { Todos := tl.Todos ++ [⟨tl.NextID, task, false, now, canonical, dueDate, tags⟩],
    NextID := tl.NextID + 1 }

/-- The `not found` error message produced by Complete/Uncomplete/Delete/EditTask. -/
def notFoundMsg (id : Int) : String :=
  "todo with ID " ++ toString id ++ " not found"

/-- Linear scan of `TodoList.Complete`: set the flag of the first record
with the given identifier. -/
def completeAux (id : Int) : List Todo → Option (List Todo)
  | [] => none
  | t :: ts =>
    if t.ID == id then some ({ t with Completed := true } :: ts)
    else (completeAux id ts).map (t :: ·)

/-- `TodoList.Complete`: mark a record complete by identifier, `NotFound`
error when absent. -/
def TodoList.Complete (tl : TodoList) (id : Int) : Except String TodoList :=
  match completeAux id tl.Todos with
  | some l => .ok { tl with Todos := l }
  | none => .error (notFoundMsg id)

/-- Linear scan of `TodoList.Uncomplete`: clear the flag of the first record
with the given identifier. -/
def uncompleteAux (id : Int) : List Todo → Option (List Todo)
  | [] => none
  | t :: ts =>
    if t.ID == id then some ({ t with Completed := false } :: ts)
    else (uncompleteAux id ts).map (t :: ·)

/-- `TodoList.Uncomplete`: mark a record incomplete by identifier. -/
def TodoList.Uncomplete (tl : TodoList) (id : Int) : Except String TodoList :=
  match uncompleteAux id tl.Todos with
  | some l => .ok { tl with Todos := l }
  | none => .error (notFoundMsg id)

/-- Linear scan of `TodoList.Delete`: remove the first record with the given
identifier, returning it together with the remaining sequence. -/
def deleteAux (id : Int) : List Todo → Option (Todo × List Todo)
  | [] => none
  | t :: ts =>
    if t.ID == id then some (t, ts)
    else (deleteAux id ts).map (fun p => (p.1, t :: p.2))

/-- `TodoList.Delete`: remove a record by identifier, returning the removed
record; `NotFound` error when absent. -/
def TodoList.Delete (tl : TodoList) (id : Int) : Except String (Todo × TodoList) :=
  match deleteAux id tl.Todos with
  | some (t, l) => .ok (t, { tl with Todos := l })
  | none => .error (notFoundMsg id)

/-- Linear scan of `TodoList.EditTask`: replace the description of the first
record with the given identifier. -/
def editAux (id : Int) (newTask : String) : List Todo → Option (List Todo)
  | [] => none
  | t :: ts =>
    if t.ID == id then some ({ t with Task := newTask } :: ts)
    else (editAux id newTask ts).map (t :: ·)

/-- `TodoList.EditTask`: replace a record's description by identifier. -/
def TodoList.EditTask (tl : TodoList) (id : Int) (newTask : String) : Except String TodoList :=
  match editAux id newTask tl.Todos with
  | some l => .ok { tl with Todos := l }
  | none => .error (notFoundMsg id)

/-- `TodoList.ClearCompleted`: keep the incomplete records; also report how
many records were removed (0 means the no-op "nothing to clear" path). -/
def TodoList.ClearCompleted (tl : TodoList) : TodoList × Nat :=
  let activeTodos := tl.Todos.filter (fun t => !t.Completed)
  if tl.Todos.length > activeTodos.length then
    ({ tl with Todos := activeTodos }, tl.Todos.length - activeTodos.length)
  else
    (tl, 0)

/-- Go's `strings.Contains s sub`: `sub` occurs as a contiguous substring of `s`. -/
def strContains (s sub : String) : Bool :=
  decide (sub.data <:+: s.data)

/-- The scan loop of `TodoList.SearchTasks`: a record is appended once when
its lowercased description contains the query, otherwise once when some
lowercased tag contains it. -/
def searchAux (lowerQuery : String) : List Todo → List Todo
  | [] => []
  | t :: ts =>
    if strContains (strToLower t.Task) lowerQuery then t :: searchAux lowerQuery ts
    else if t.Tags.any (fun tag => strContains (strToLower tag) lowerQuery) then
      t :: searchAux lowerQuery ts
    else searchAux lowerQuery ts

/-- `TodoList.SearchTasks`: case-insensitive substring search over
descriptions and tags, collected into a fresh `NewTodoList`. -/
def TodoList.SearchTasks (tl : TodoList) (query : String) : TodoList :=
  { NewTodoList with Todos := searchAux (strToLower query) tl.Todos }

/-- The query specification of `List`, mirroring `ListOptions` in `main.go`. -/
structure ListOptions where
  FilterStatus : String
  FilterPriority : String
  FilterTags : List String
  SortBy : String
  SortOrder : String

/-- The filter step of `TodoList.List`: a record matches when it passes the
status filter, the (canonicalized) priority filter, and, when tag filters are
present, shares at least one tag case-insensitively. -/
def matchesOptions (options : ListOptions) (todo : Todo) : Bool :=
  (!(options.FilterStatus == "completed" && !todo.Completed)) &&
  (!(options.FilterStatus == "incomplete" && todo.Completed)) &&
  (let canonicalFilterPriority := toCanonicalPriority options.FilterPriority
   !(canonicalFilterPriority != "" && todo.Priority != canonicalFilterPriority)) &&
  (!(decide (options.FilterTags.length > 0) &&
     !(options.FilterTags.any (fun filterTag =>
        todo.Tags.any (fun todoTag => strToLower filterTag == strToLower todoTag)))))

/-- The comparison closure passed to `sort.Slice` inside `TodoList.List`.
The `due_date` branch returns directly (so the trailing descending negation
never applies to it and absent due dates sort last in both directions); the
other keys compute `less` and negate it when the order is `"desc"`. -/
def listLess (options : ListOptions) (a b : Todo) : Bool :=
  if options.SortBy == "due_date" then
    if options.SortOrder == "desc" then
      match a.DueDate, b.DueDate with
      | none, none => false
      | none, some _ => false
      | some _, none => true
      | some x, some y => decide (y < x)
    else
      match a.DueDate, b.DueDate with
      | none, none => false
      | none, some _ => false
      | some _, none => true
      | some x, some y => decide (x < y)
  else
    let less :=
      match options.SortBy with
      | "id" => decide (a.ID < b.ID)
      | "task" => strLt (strToLower a.Task) (strToLower b.Task)
      | "created_at" => decide (a.CreatedAt < b.CreatedAt)
      | "priority" => strLt (strToLower a.Priority) (strToLower b.Priority)
      | _ => decide (a.ID < b.ID)
    if options.SortOrder == "desc" then !less else less

/-- Insert an element into a list, placing it before the first element `b`
with `le a b`. -/
def insertSorted {α : Type} (le : α → α → Bool) (a : α) : List α → List α
  | [] => [a]
  | b :: bs => if le a b then a :: b :: bs else b :: insertSorted le a bs

/-- Insertion sort by `le`. -/
def sortLE {α : Type} (le : α → α → Bool) : List α → List α
  | [] => []
  | a :: as => insertSorted le a (sortLE le as)

/-- Model of Go's `sort.Slice x less`: a permutation of the input in which
no later element is `less` than an earlier one (`¬ less x[j] x[i]` for
`i < j`), realized deterministically by insertion sort. -/
def sortSlice {α : Type} (less : α → α → Bool) (l : List α) : List α :=
  sortLE (fun a b => !(less b a)) l

/-- The filter-and-sort pipeline of `TodoList.List` (the rendering of the
resulting records to the console is not modelled): filter by
`matchesOptions`, then, when a sort key is given, sort by the `listLess`
comparator. -/
def TodoList.ListTodos (tl : TodoList) (options : ListOptions) : List Todo :=
  let filteredTodos := tl.Todos.filter (matchesOptions options)
  if options.SortBy != "" then sortSlice (listLess options) filteredTodos
  else filteredTodos

/-- The structured, human-readable persisted form (the JSON tree produced by
`json.MarshalIndent` and consumed by `json.Unmarshal`); timestamps are kept
in their abstract `GoTime` form inside `num`. -/
inductive Json where
  | null : Json
  | bool : Bool → Json
  | num : Int → Json
  | str : String → Json
  | arr : List Json → Json
  | obj : List (String × Json) → Json

/-- The zero `Todo` value that `json.Unmarshal` fills in field by field. -/
def zeroTodo : Todo :=
  { ID := 0, Task := "", Completed := false, CreatedAt := (0 : GoTime),
    Priority := "", DueDate := none, Tags := [] }

/-- Marshalling of one `Todo` following its `json:"..."` struct tags. -/
def encodeTodo (t : Todo) : Json :=
  .obj [("id", .num t.ID), ("task", .str t.Task), ("completed", .bool t.Completed),
    ("created_at", .num t.CreatedAt),
    ("priority", .str t.Priority),
    ("due_date", match t.DueDate with | none => .null | some d => .num d),
    ("tags", .arr (t.Tags.map .str))]

/-- Marshalling of the whole `TodoList` (`todos` sequence plus `next_id`). -/
def encodeTodoList (tl : TodoList) : Json :=
  .obj [("todos", .arr (tl.Todos.map encodeTodo)), ("next_id", .num tl.NextID)]

/-- Unmarshalling of one string element of the `tags` array. -/
def decodeTag : Json → Option String
  | .str s => some s
  | _ => none

/-- Unmarshalling of the `tags` array, element by element. -/
def decodeTags : List Json → Option (List String)
  | [] => some []
  | j :: js =>
    match decodeTag j with
    | some s => (decodeTags js).map (s :: ·)
    | none => none

/-- Unmarshalling of one `Todo` object field: a matching key of the right
shape updates the record, `null` leaves it unchanged, a type mismatch fails,
and unknown keys are ignored. -/
def setTodoField (t : Todo) : String × Json → Option Todo
  | ("id", .num n) => some { t with ID := n }
  | ("id", .null) => some t
  | ("id", _) => none
  | ("task", .str s) => some { t with Task := s }
  | ("task", .null) => some t
  | ("task", _) => none
  | ("completed", .bool b) => some { t with Completed := b }
  | ("completed", .null) => some t
  | ("completed", _) => none
  | ("created_at", .num n) => some { t with CreatedAt := n }
  | ("created_at", .null) => some t
  | ("created_at", _) => none
  | ("priority", .str s) => some { t with Priority := s }
  | ("priority", .null) => some t
  | ("priority", _) => none
  | ("due_date", .num n) => some { t with DueDate := some n }
  | ("due_date", .null) => some t
  | ("due_date", _) => none
  | ("tags", .arr xs) => (decodeTags xs).map (fun tags => { t with Tags := tags })
  | ("tags", .null) => some t
  | ("tags", _) => none
  | (_, _) => some t

/-- Unmarshalling of one `Todo`: an object folds its fields over the zero
value, `null` is a no-op, anything else is a decode error. -/
def decodeTodo : Json → Option Todo
  | .null => some zeroTodo
  | .obj kvs => kvs.foldlM setTodoField zeroTodo
  | _ => none

/-- Unmarshalling of the `todos` array, element by element. -/
def decodeTodos : List Json → Option (List Todo)
  | [] => some []
  | j :: js =>
    match decodeTodo j with
    | some t => (decodeTodos js).map (t :: ·)
    | none => none

/-- Unmarshalling of one `TodoList` object field (same conventions as
`setTodoField`). -/
def setTodoListField (tl : TodoList) : String × Json → Option TodoList
  | ("todos", .arr xs) => (decodeTodos xs).map (fun todos => { tl with Todos := todos })
  | ("todos", .null) => some tl
  | ("todos", _) => none
  | ("next_id", .num n) => some { tl with NextID := n }
  | ("next_id", .null) => some tl
  | ("next_id", _) => none
  | (_, _) => some tl

/-- Unmarshalling of the persisted `TodoList`, starting from `NewTodoList`
exactly as `LoadFromFile` does. -/
def decodeTodoList : Json → Option TodoList
  | .null => some NewTodoList
  | .obj kvs => kvs.foldlM setTodoListField NewTodoList
  | _ => none

/-- What reading the data file can observe: the file is missing, the read
fails with some other I/O error, or it yields the stored document. -/
inductive ReadResult where
  | notExist : ReadResult
  | ioError : ReadResult
  | content : Json → ReadResult

/-- `SaveToFile`: marshal the collection (which for these field types never
fails) and overwrite the destination, so that a subsequent read returns
exactly the encoded document. -/
def TodoList.SaveToFile (tl : TodoList) : ReadResult :=
  .content (encodeTodoList tl)

/-- `LoadFromFile`: a missing file bootstraps a fresh `NewTodoList` with no
error; any other read error is fatal; otherwise unmarshal, failing on a
decode error. -/
def LoadFromFile (r : ReadResult) : Except String TodoList :=
  match r with
  | .notExist => .ok NewTodoList
  | .ioError => .error "failed to load todos"
  | .content j =>
    match decodeTodoList j with
    | some tl => .ok tl
    | none => .error "failed to parse todos"

/-- `ActionType` of `cli.go` (the undo tracker's tag). -/
inductive ActionType where
  | actionNone
  | actionAdd
  | actionComplete
  | actionDelete
  | actionUncomplete
deriving DecidableEq

/-- `lastAction` of `cli.go`: the single process-wide undo record. -/
structure LastAction where
  actType : ActionType
  id : Int
  deletedTodo : Option Todo
  previousCompletedStatus : Bool
deriving DecidableEq

/-- The zero value of the global `lastActionState`, also what the undo
handler resets the state to after every undo attempt. -/
def clearedAction : LastAction :=
  { actType := .actionNone, id := 0, deletedTodo := none, previousCompletedStatus := false }

/-- The observable outcome of one `undo` command (which user-facing message
the handler prints). -/
inductive UndoOutcome where
  | nothingToUndo
  | undidAdd (id : Int)
  | undoAddFailed (id : Int)
  | undidComplete (id : Int)
  | undoCompleteFailed (id : Int)
  | undidDelete (t : Todo)
  | undoDeleteNoData
  | undidUncomplete (id : Int)
  | undoUncompleteFailed (id : Int)
deriving DecidableEq

/-- The state the interactive loop operates on: the live collection plus the
global `lastActionState`. -/
structure AppState where
  list : TodoList
  last : LastAction
deriving DecidableEq

/-- The `undo` case of `runInteractiveMode`: dispatch on the recorded action
(add is undone by delete, complete by uncomplete, uncomplete by complete,
delete by appending the stored copy to the live sequence, none reports
nothing to undo), then reset the tracker to its cleared state. -/
def applyUndo (s : AppState) : AppState × UndoOutcome :=
  match s.last.actType with
  | .actionAdd =>
    match s.list.Delete s.last.id with
    | .ok (_, tl) => ({ list := tl, last := clearedAction }, .undidAdd s.last.id)
    | .error _ => ({ s with last := clearedAction }, .undoAddFailed s.last.id)
  | .actionComplete =>
    match s.list.Uncomplete s.last.id with
    | .ok tl => ({ list := tl, last := clearedAction }, .undidComplete s.last.id)
    | .error _ => ({ s with last := clearedAction }, .undoCompleteFailed s.last.id)
  | .actionDelete =>
    match s.last.deletedTodo with
    | some t =>
      ({ list := { s.list with Todos := s.list.Todos ++ [t] }, last := clearedAction },
       .undidDelete t)
    | none => ({ s with last := clearedAction }, .undoDeleteNoData)
  | .actionUncomplete =>
    match s.list.Complete s.last.id with
    | .ok tl => ({ list := tl, last := clearedAction }, .undidUncomplete s.last.id)
    | .error _ => ({ s with last := clearedAction }, .undoUncompleteFailed s.last.id)
  | .actionNone => ({ s with last := clearedAction }, .nothingToUndo)

/-- One user-level operation of the interactive loop (confirmation prompts
are modelled as answered with yes). -/
inductive Op where
  | add (task priority : String) (dueDate : Option GoTime) (tags : List String) (now : GoTime)
  | complete (id : Int)
  | uncomplete (id : Int)
  | edit (id : Int) (newTask : String)
  | delete (id : Int)
  | clearCompleted
  | undo

/-- One step of `runInteractiveMode`: perform the collection operation and
maintain `lastActionState` exactly as the corresponding `case` does — a
successful add/complete/uncomplete/delete overwrites it, a failed one leaves
it alone, and edit/clear-completed never touch it. -/
def applyOp (s : AppState) : Op → AppState
  | .add task priority dueDate tags now =>
    let tl := s.list.Add task priority dueDate tags now
    { list := tl,
      last := { actType := .actionAdd, id := tl.NextID - 1, deletedTodo := none,
                previousCompletedStatus := false } }
  | .complete id =>
    match s.list.Complete id with
    | .ok tl =>
      { list := tl,
        last := { actType := .actionComplete, id := id, deletedTodo := none,
                  previousCompletedStatus := false } }
    | .error _ => s
  | .uncomplete id =>
    match s.list.Uncomplete id with
    | .ok tl =>
      { list := tl,
        last := { actType := .actionUncomplete, id := id, deletedTodo := none,
                  previousCompletedStatus := true } }
    | .error _ => s
  | .edit id newTask =>
    match s.list.EditTask id newTask with
    | .ok tl => { s with list := tl }
    | .error _ => s
  | .delete id =>
    match s.list.Delete id with
    | .ok (t, tl) =>
      { list := tl,
        last := { actType := .actionDelete, id := id, deletedTodo := some t,
                  previousCompletedStatus := false } }
    | .error _ => s
  | .clearCompleted => { s with list := s.list.ClearCompleted.1 }
  | .undo => (applyUndo s).1

/-- The process start state: an empty collection and the zero-valued
`lastActionState`. -/
def initState : AppState := { list := NewTodoList, last := clearedAction }

/-- Run a sequence of interactive operations from the start state. -/
def runOps (ops : List Op) : AppState := ops.foldl applyOp initState

theorem insertSorted_perm {α : Type} (le : α → α → Bool) (a : α) (l : List α) :
    (insertSorted le a l).Perm (a :: l) := by
  induction l with
  | nil => simp [insertSorted]
  | cons b bs ih =>
    simp only [insertSorted]
    by_cases h : le a b
    · simp [h]
    · simp only [h, if_neg]
      exact ((ih.cons b).trans (List.Perm.swap a b bs))

theorem sortLE_perm {α : Type} (le : α → α → Bool) (l : List α) :
    (sortLE le l).Perm l := by
  induction l with
  | nil => simp [sortLE]
  | cons a as ih =>
    exact (insertSorted_perm le a (sortLE le as)).trans (ih.cons a)

theorem insertSorted_pairwise {α : Type} (le : α → α → Bool) (R : α → α → Prop)
    (h1 : ∀ a b, le a b = true → R a b) (h2 : ∀ a b, le a b = false → R b a)
    (htrans : ∀ a b c, R a b → R b c → R a c)
    (a : α) (l : List α) (hl : l.Pairwise R) : (insertSorted le a l).Pairwise R := by
  induction l with
  | nil => simp [insertSorted]
  | cons b bs ih =>
    rcases List.pairwise_cons.mp hl with ⟨hb, hbs⟩
    simp only [insertSorted]
    by_cases hle : le a b = true
    · rw [if_pos hle, List.pairwise_cons]
      refine ⟨fun c hc => ?_, hl⟩
      rcases List.mem_cons.mp hc with hc | hc
      · rw [hc]; exact h1 a b hle
      · exact htrans a b c (h1 a b hle) (hb c hc)
    · have hle' : le a b = false := Bool.not_eq_true _ ▸ Bool.of_not_eq_true hle
      rw [if_neg hle, List.pairwise_cons]
      refine ⟨fun c hc => ?_, ih hbs⟩
      rcases List.mem_cons.mp ((insertSorted_perm le a bs).mem_iff.mp hc) with hc | hc
      · rw [hc]; exact h2 a b hle'
      · exact hb c hc

theorem sortLE_pairwise {α : Type} (le : α → α → Bool) (R : α → α → Prop)
    (h1 : ∀ a b, le a b = true → R a b) (h2 : ∀ a b, le a b = false → R b a)
    (htrans : ∀ a b c, R a b → R b c → R a c)
    (l : List α) : (sortLE le l).Pairwise R := by
  induction l with
  | nil => simp [sortLE]
  | cons a as ih => exact insertSorted_pairwise le R h1 h2 htrans a (sortLE le as) ih

theorem sortSlice_perm {α : Type} (less : α → α → Bool) (l : List α) :
    (sortSlice less l).Perm l := sortLE_perm _ l

theorem sortSlice_pairwise {α : Type} (less : α → α → Bool) (R : α → α → Prop)
    (h1 : ∀ a b, less b a = false → R a b) (h2 : ∀ a b, less b a = true → R b a)
    (htrans : ∀ a b c, R a b → R b c → R a c)
    (l : List α) : (sortSlice less l).Pairwise R := by
  refine sortLE_pairwise _ R ?_ ?_ htrans l
  · intro a b h
    simp only [Bool.not_eq_eq_eq_not, Bool.not_true] at h
    exact h1 a b h
  · intro a b h
    simp only [Bool.not_eq_eq_eq_not, Bool.not_false] at h
    exact h2 a b h

/-- The identifier sequence of a collection. -/
def idsOf (tl : TodoList) : List Int := tl.Todos.map (·.ID)

theorem completeAux_map_id (id : Int) (l m : List Todo) (h : completeAux id l = some m) :
    m.map (·.ID) = l.map (·.ID) := by
  induction l generalizing m with
  | nil => simp [completeAux] at h
  | cons t ts ih =>
    simp only [completeAux] at h
    by_cases ht : t.ID == id
    · rw [if_pos ht] at h
      cases h
      simp
    · rw [if_neg ht] at h
      rcases Option.map_eq_some'.mp h with ⟨m', hm', rfl⟩
      simp [ih m' hm']

theorem uncompleteAux_map_id (id : Int) (l m : List Todo) (h : uncompleteAux id l = some m) :
    m.map (·.ID) = l.map (·.ID) := by
  induction l generalizing m with
  | nil => simp [uncompleteAux] at h
  | cons t ts ih =>
    simp only [uncompleteAux] at h
    by_cases ht : t.ID == id
    · rw [if_pos ht] at h
      cases h
      simp
    · rw [if_neg ht] at h
      rcases Option.map_eq_some'.mp h with ⟨m', hm', rfl⟩
      simp [ih m' hm']

theorem editAux_map_id (id : Int) (newTask : String) (l m : List Todo)
    (h : editAux id newTask l = some m) : m.map (·.ID) = l.map (·.ID) := by
  induction l generalizing m with
  | nil => simp [editAux] at h
  | cons t ts ih =>
    simp only [editAux] at h
    by_cases ht : t.ID == id
    · rw [if_pos ht] at h
      cases h
      simp
    · rw [if_neg ht] at h
      rcases Option.map_eq_some'.mp h with ⟨m', hm', rfl⟩
      simp [ih m' hm']

theorem deleteAux_eq_some (id : Int) (l : List Todo) (t : Todo) (m : List Todo)
    (h : deleteAux id l = some (t, m)) :
    ∃ pre post, l = pre ++ t :: post ∧ m = pre ++ post ∧ t.ID = id ∧
      ∀ u ∈ pre, u.ID ≠ id := by
  induction l generalizing m with
  | nil => simp [deleteAux] at h
  | cons u us ih =>
    simp only [deleteAux] at h
    by_cases hu : u.ID == id
    · rw [if_pos hu] at h
      cases h
      exact ⟨[], us, rfl, rfl, by simpa using hu, by simp⟩
    · rw [if_neg hu] at h
      rcases Option.map_eq_some'.mp h with ⟨⟨t', m'⟩, hm', hp⟩
      cases hp
      rcases ih m' hm' with ⟨pre, post, hl, hm, hid, hpre⟩
      refine ⟨u :: pre, post, by simp [hl], by simp [hm], hid, ?_⟩
      intro v hv
      rcases List.mem_cons.mp hv with hv | hv
      · rw [hv]; simpa using hu
      · exact hpre v hv

theorem deleteAux_of_decomp (id : Int) (pre post : List Todo) (t : Todo)
    (hpre : ∀ u ∈ pre, u.ID ≠ id) (ht : t.ID = id) :
    deleteAux id (pre ++ t :: post) = some (t, pre ++ post) := by
  induction pre with
  | nil => simp [deleteAux, ht]
  | cons u us ih =>
    have hu : ¬(u.ID == id) := by
      simpa using hpre u (List.mem_cons_self u us)
    simp only [List.cons_append, deleteAux, if_neg hu, List.append_eq]
    rw [ih (fun v hv => hpre v (List.mem_cons_of_mem u hv))]
    rfl

theorem deleteAux_eq_none (id : Int) (l : List Todo) (h : ∀ u ∈ l, u.ID ≠ id) :
    deleteAux id l = none := by
  induction l with
  | nil => rfl
  | cons u us ih =>
    have hu : ¬(u.ID == id) := by simpa using h u (List.mem_cons_self u us)
    simp only [deleteAux, if_neg hu, ih (fun v hv => h v (List.mem_cons_of_mem u hv))]
    rfl

theorem editAux_of_decomp (id : Int) (newTask : String) (pre post : List Todo) (t : Todo)
    (hpre : ∀ u ∈ pre, u.ID ≠ id) (ht : t.ID = id) :
    editAux id newTask (pre ++ t :: post) =
      some (pre ++ { t with Task := newTask } :: post) := by
  induction pre with
  | nil => simp [editAux, ht]
  | cons u us ih =>
    have hu : ¬(u.ID == id) := by
      simpa using hpre u (List.mem_cons_self u us)
    simp only [List.cons_append, editAux, if_neg hu, List.append_eq]
    rw [ih (fun v hv => hpre v (List.mem_cons_of_mem u hv))]
    rfl

theorem decodeTags_map (tags : List String) :
    decodeTags (tags.map Json.str) = some tags := by
  induction tags with
  | nil => rfl
  | cons s ss ih => simp [decodeTags, decodeTag, ih]

theorem decodeTodo_encodeTodo (t : Todo) : decodeTodo (encodeTodo t) = some t := by
  cases t with
  | mk id task completed createdAt priority dueDate tags =>
    cases dueDate with
    | none =>
      simp [encodeTodo, decodeTodo, setTodoField, zeroTodo, List.foldlM, decodeTags_map]
    | some d =>
      simp [encodeTodo, decodeTodo, setTodoField, zeroTodo, List.foldlM, decodeTags_map]

theorem decodeTodos_map (todos : List Todo) :
    decodeTodos (todos.map encodeTodo) = some todos := by
  induction todos with
  | nil => rfl
  | cons t ts ih => simp [decodeTodos, decodeTodo_encodeTodo, ih]

theorem decodeTodoList_encodeTodoList (tl : TodoList) :
    decodeTodoList (encodeTodoList tl) = some tl := by
  cases tl with
  | mk todos nextID =>
    simp [encodeTodoList, decodeTodoList, setTodoListField, List.foldlM, decodeTodos_map,
      NewTodoList]

theorem Complete_ok (tl : TodoList) (id : Int) (tl' : TodoList)
    (h : tl.Complete id = .ok tl') :
    tl'.Todos.map (·.ID) = tl.Todos.map (·.ID) ∧ tl'.NextID = tl.NextID := by
  unfold TodoList.Complete at h
  cases hca : completeAux id tl.Todos with
  | none => rw [hca] at h; cases h
  | some m =>
    rw [hca] at h
    cases h
    exact ⟨completeAux_map_id id tl.Todos m hca, rfl⟩

theorem Uncomplete_ok (tl : TodoList) (id : Int) (tl' : TodoList)
    (h : tl.Uncomplete id = .ok tl') :
    tl'.Todos.map (·.ID) = tl.Todos.map (·.ID) ∧ tl'.NextID = tl.NextID := by
  unfold TodoList.Uncomplete at h
  cases hca : uncompleteAux id tl.Todos with
  | none => rw [hca] at h; cases h
  | some m =>
    rw [hca] at h
    cases h
    exact ⟨uncompleteAux_map_id id tl.Todos m hca, rfl⟩

theorem EditTask_ok (tl : TodoList) (id : Int) (newTask : String) (tl' : TodoList)
    (h : tl.EditTask id newTask = .ok tl') :
    tl'.Todos.map (·.ID) = tl.Todos.map (·.ID) ∧ tl'.NextID = tl.NextID := by
  unfold TodoList.EditTask at h
  cases hca : editAux id newTask tl.Todos with
  | none => rw [hca] at h; cases h
  | some m =>
    rw [hca] at h
    cases h
    exact ⟨editAux_map_id id newTask tl.Todos m hca, rfl⟩

theorem Delete_ok (tl : TodoList) (id : Int) (t : Todo) (tl' : TodoList)
    (h : tl.Delete id = .ok (t, tl')) :
    ∃ pre post, tl.Todos = pre ++ t :: post ∧
      tl'.Todos = pre ++ post ∧ tl'.NextID = tl.NextID ∧ t.ID = id ∧
      ∀ u ∈ pre, u.ID ≠ id := by
  unfold TodoList.Delete at h
  cases hda : deleteAux id tl.Todos with
  | none => rw [hda] at h; cases h
  | some p =>
    rcases p with ⟨t0, m⟩
    rw [hda] at h
    injection h with h1
    injection h1 with h2 h3
    subst h2
    subst h3
    rcases deleteAux_eq_some id tl.Todos t0 m hda with ⟨pre, post, h1, h2, h3, h4⟩
    exact ⟨pre, post, h1, h2, rfl, h3, h4⟩

theorem bound_of_map_id_eq (l m : List Todo) (n : Int)
    (hmap : m.map (·.ID) = l.map (·.ID)) (h : ∀ t ∈ l, t.ID < n) :
    ∀ t ∈ m, t.ID < n := by
  intro t ht
  have hmem : t.ID ∈ m.map (·.ID) := List.mem_map_of_mem _ ht
  rw [hmap] at hmem
  rcases List.mem_map.mp hmem with ⟨u, hu, he⟩
  rw [← he]
  exact h u hu

theorem notMem_ids_of_bound (tl : TodoList) (hbd : ∀ t ∈ tl.Todos, t.ID < tl.NextID) :
    tl.NextID ∉ idsOf tl := by
  intro hmem
  rcases List.mem_map.mp hmem with ⟨u, hu, he⟩
  exact absurd (he ▸ hbd u hu) (lt_irrefl _)

/-- The identifier invariant of a reachable interactive state: identifiers
are pairwise distinct and below the counter, and a pending-delete undo
record stores a todo whose identifier is below the counter and absent from
the live sequence. -/
def StateInv (s : AppState) : Prop :=
  (idsOf s.list).Nodup ∧
  (∀ t ∈ s.list.Todos, t.ID < s.list.NextID) ∧
  (∀ t, s.last.actType = ActionType.actionDelete → s.last.deletedTodo = some t →
     t.ID < s.list.NextID ∧ t.ID ∉ idsOf s.list)

theorem inv_initState : StateInv initState := by
  refine ⟨?_, ?_, ?_⟩ <;> simp [initState, NewTodoList, idsOf, clearedAction]

theorem inv_append_fresh (tl : TodoList) (t : Todo)
    (hnd : (idsOf tl).Nodup) (hbd : ∀ u ∈ tl.Todos, u.ID < tl.NextID)
    (htlt : t.ID < tl.NextID + 1) (htnot : t.ID ∉ idsOf tl) :
    (idsOf { Todos := tl.Todos ++ [t], NextID := tl.NextID + 1 }).Nodup ∧
    ∀ u ∈ tl.Todos ++ [t], u.ID < tl.NextID + 1 := by
  constructor
  · simp only [idsOf, List.map_append, List.map_cons, List.map_nil]
    rw [List.nodup_append]
    refine ⟨hnd, List.nodup_singleton _, ?_⟩
    intro x hx hx'
    rcases List.mem_singleton.mp hx' with rfl
    exact htnot hx
  · intro u hu
    rcases List.mem_append.mp hu with hu | hu
    · exact lt_trans (hbd u hu) (lt_add_one _)
    · rcases List.mem_singleton.mp hu with rfl
      exact htlt

theorem inv_applyOp (s : AppState) (op : Op) (h : StateInv s) : StateInv (applyOp s op) := by
  obtain ⟨hnd, hbd, haux⟩ := h
  cases op with
  | add task priority dueDate tags now =>
    simp only [applyOp, TodoList.Add]
    have hfresh := inv_append_fresh s.list
      ⟨s.list.NextID, task, false, now,
        if isValidPriority (toCanonicalPriority priority) then toCanonicalPriority priority
        else "medium", dueDate, tags⟩
      hnd hbd (lt_add_one _) (notMem_ids_of_bound s.list hbd)
    exact ⟨hfresh.1, hfresh.2, by simp⟩
  | complete id =>
    simp only [applyOp]
    cases hc : s.list.Complete id with
    | error e => exact ⟨hnd, hbd, haux⟩
    | ok tl' =>
      obtain ⟨hmap, hnext⟩ := Complete_ok s.list id tl' hc
      refine ⟨?_, ?_, by simp⟩
      · simpa [idsOf, hmap] using hnd
      · intro t ht
        rw [hnext]
        exact bound_of_map_id_eq s.list.Todos tl'.Todos s.list.NextID hmap hbd t ht
  | uncomplete id =>
    simp only [applyOp]
    cases hc : s.list.Uncomplete id with
    | error e => exact ⟨hnd, hbd, haux⟩
    | ok tl' =>
      obtain ⟨hmap, hnext⟩ := Uncomplete_ok s.list id tl' hc
      refine ⟨?_, ?_, by simp⟩
      · simpa [idsOf, hmap] using hnd
      · intro t ht
        rw [hnext]
        exact bound_of_map_id_eq s.list.Todos tl'.Todos s.list.NextID hmap hbd t ht
  | edit id newTask =>
    simp only [applyOp]
    cases hc : s.list.EditTask id newTask with
    | error e => exact ⟨hnd, hbd, haux⟩
    | ok tl' =>
      obtain ⟨hmap, hnext⟩ := EditTask_ok s.list id newTask tl' hc
      refine ⟨?_, ?_, ?_⟩
      · simpa [idsOf, hmap] using hnd
      · intro t ht
        rw [hnext]
        exact bound_of_map_id_eq s.list.Todos tl'.Todos s.list.NextID hmap hbd t ht
      · intro t hty hdel
        obtain ⟨h1, h2⟩ := haux t hty hdel
        refine ⟨by rw [hnext]; exact h1, ?_⟩
        simpa [idsOf, hmap] using h2
  | delete id =>
    simp only [applyOp]
    cases hc : s.list.Delete id with
    | error e => exact ⟨hnd, hbd, haux⟩
    | ok p =>
      rcases p with ⟨t0, tl'⟩
      dsimp only
      obtain ⟨pre, post, hl, hl', hnext, hid, hpre⟩ := Delete_ok s.list id t0 tl' hc
      have hsub : tl'.Todos.Sublist s.list.Todos := by
        rw [hl, hl']
        exact List.Sublist.append_left (List.sublist_cons_self t0 post) pre
      have hsubmap : (idsOf tl').Sublist (idsOf s.list) := List.Sublist.map _ hsub
      refine ⟨hsubmap.nodup hnd, ?_, ?_⟩
      · intro t ht
        rw [hnext]
        exact hbd t (hsub.mem ht)
      · intro t hty hdel
        cases hdel
        constructor
        · rw [hnext]
          exact hbd t0 (by rw [hl]; exact List.mem_append_right pre (List.mem_cons_self t0 post))
        · have hnodup : ((pre.map (·.ID)) ++ t0.ID :: (post.map (·.ID))).Nodup := by
            have : idsOf s.list = (pre.map (·.ID)) ++ t0.ID :: (post.map (·.ID)) := by
              simp [idsOf, hl]
            rw [← this]
            exact hnd
          intro hmem
          dsimp only at hmem
          rw [show idsOf tl' = tl'.Todos.map (·.ID) from rfl, hl'] at hmem
          simp only [List.map_append, List.mem_append] at hmem
          rcases List.nodup_append.mp hnodup with ⟨_, hpn, hdisj⟩
          rcases hmem with hmem | hmem
          · exact hdisj hmem (List.mem_cons_self _ _)
          · exact (List.nodup_cons.mp hpn).1 hmem
  | clearCompleted =>
    simp only [applyOp, TodoList.ClearCompleted]
    by_cases hlen : s.list.Todos.length > (s.list.Todos.filter (fun t => !t.Completed)).length
    · rw [if_pos hlen]
      have hsub : (s.list.Todos.filter (fun t => !t.Completed)).Sublist s.list.Todos :=
        List.filter_sublist s.list.Todos
      have hsubmap := List.Sublist.map (fun (t : Todo) => t.ID) hsub
      refine ⟨hsubmap.nodup hnd, ?_, ?_⟩
      · intro t ht
        exact hbd t (hsub.mem ht)
      · intro t hty hdel
        obtain ⟨h1, h2⟩ := haux t hty hdel
        exact ⟨h1, fun hmem => h2 (hsubmap.mem hmem)⟩
    · rw [if_neg hlen]
      exact ⟨hnd, hbd, haux⟩
  | undo =>
    simp only [applyOp, applyUndo]
    cases hty : s.last.actType with
    | actionNone => exact ⟨hnd, hbd, by simp [clearedAction]⟩
    | actionAdd =>
      cases hc : s.list.Delete s.last.id with
      | error e => exact ⟨hnd, hbd, by simp [clearedAction]⟩
      | ok p =>
        rcases p with ⟨t0, tl'⟩
        obtain ⟨pre, post, hl, hl', hnext, hid, hpre⟩ := Delete_ok s.list s.last.id t0 tl' hc
        have hsub : tl'.Todos.Sublist s.list.Todos := by
          rw [hl, hl']
          exact List.Sublist.append_left (List.sublist_cons_self t0 post) pre
        have hsubmap : (idsOf tl').Sublist (idsOf s.list) := List.Sublist.map _ hsub
        refine ⟨hsubmap.nodup hnd, ?_, by simp [clearedAction]⟩
        intro t ht
        rw [hnext]
        exact hbd t (hsub.mem ht)
    | actionComplete =>
      cases hc : s.list.Uncomplete s.last.id with
      | error e => exact ⟨hnd, hbd, by simp [clearedAction]⟩
      | ok tl' =>
        obtain ⟨hmap, hnext⟩ := Uncomplete_ok s.list s.last.id tl' hc
        refine ⟨by simpa [idsOf, hmap] using hnd, ?_, by simp [clearedAction]⟩
        intro t ht
        rw [hnext]
        exact bound_of_map_id_eq s.list.Todos tl'.Todos s.list.NextID hmap hbd t ht
    | actionUncomplete =>
      cases hc : s.list.Complete s.last.id with
      | error e => exact ⟨hnd, hbd, by simp [clearedAction]⟩
      | ok tl' =>
        obtain ⟨hmap, hnext⟩ := Complete_ok s.list s.last.id tl' hc
        refine ⟨by simpa [idsOf, hmap] using hnd, ?_, by simp [clearedAction]⟩
        intro t ht
        rw [hnext]
        exact bound_of_map_id_eq s.list.Todos tl'.Todos s.list.NextID hmap hbd t ht
    | actionDelete =>
      cases hdel : s.last.deletedTodo with
      | none => exact ⟨hnd, hbd, by simp [clearedAction]⟩
      | some t0 =>
        obtain ⟨hlt, hnot⟩ := haux t0 hty hdel
        have hfresh := inv_append_fresh s.list t0 hnd hbd (lt_trans hlt (lt_add_one _)) hnot
        refine ⟨?_, ?_, by simp [clearedAction]⟩
        · simpa [idsOf] using hfresh.1
        · intro t ht
          rcases List.mem_append.mp ht with ht | ht
          · exact hbd t ht
          · rcases List.mem_singleton.mp ht with rfl
            exact hlt

theorem inv_foldl (ops : List Op) (s : AppState) (h : StateInv s) :
    StateInv (ops.foldl applyOp s) := by
  induction ops generalizing s with
  | nil => exact h
  | cons op rest ih => exact ih (applyOp s op) (inv_applyOp s op h)

theorem inv_runOps (ops : List Op) : StateInv (runOps ops) :=
  inv_foldl ops initState inv_initState

theorem applyOp_add_todos (s : AppState) (task priority : String) (dueDate : Option GoTime)
    (tags : List String) (now : GoTime) :
    (applyOp s (.add task priority dueDate tags now)).list.Todos =
      s.list.Todos ++
        [⟨s.list.NextID, task, false, now,
          (if isValidPriority (toCanonicalPriority priority) then toCanonicalPriority priority
           else "medium"), dueDate, tags⟩] := rfl

theorem applyOp_add_nextID (s : AppState) (task priority : String) (dueDate : Option GoTime)
    (tags : List String) (now : GoTime) :
    (applyOp s (.add task priority dueDate tags now)).list.NextID = s.list.NextID + 1 := rfl

theorem applyOp_complete_nextID (s : AppState) (id : Int) :
    (applyOp s (.complete id)).list.NextID = s.list.NextID := by
  cases hc : s.list.Complete id with
  | error e => simp only [applyOp, hc]
  | ok tl' =>
    simp only [applyOp, hc]
    exact (Complete_ok s.list id tl' hc).2

theorem applyOp_uncomplete_nextID (s : AppState) (id : Int) :
    (applyOp s (.uncomplete id)).list.NextID = s.list.NextID := by
  cases hc : s.list.Uncomplete id with
  | error e => simp only [applyOp, hc]
  | ok tl' =>
    simp only [applyOp, hc]
    exact (Uncomplete_ok s.list id tl' hc).2

theorem applyOp_edit_nextID (s : AppState) (id : Int) (newTask : String) :
    (applyOp s (.edit id newTask)).list.NextID = s.list.NextID := by
  cases hc : s.list.EditTask id newTask with
  | error e => simp only [applyOp, hc]
  | ok tl' =>
    simp only [applyOp, hc]
    exact (EditTask_ok s.list id newTask tl' hc).2

theorem applyOp_delete_nextID (s : AppState) (id : Int) :
    (applyOp s (.delete id)).list.NextID = s.list.NextID := by
  cases hc : s.list.Delete id with
  | error e => simp only [applyOp, hc]
  | ok p =>
    rcases p with ⟨t0, tl'⟩
    simp only [applyOp, hc]
    obtain ⟨_, _, _, _, hnext, _, _⟩ := Delete_ok s.list id t0 tl' hc
    exact hnext

theorem applyOp_clearCompleted_nextID (s : AppState) :
    (applyOp s .clearCompleted).list.NextID = s.list.NextID := by
  simp only [applyOp, TodoList.ClearCompleted]
  by_cases hlen :
      s.list.Todos.length > (s.list.Todos.filter (fun t => !t.Completed)).length
  · rw [if_pos hlen]
  · rw [if_neg hlen]

theorem applyOp_undo_nextID (s : AppState) :
    (applyOp s .undo).list.NextID = s.list.NextID := by
  simp only [applyOp, applyUndo]
  cases s.last.actType with
  | actionNone => rfl
  | actionAdd =>
    cases hc : s.list.Delete s.last.id with
    | error e => rfl
    | ok p =>
      rcases p with ⟨t0, tl'⟩
      obtain ⟨_, _, _, _, hnext, _, _⟩ := Delete_ok s.list s.last.id t0 tl' hc
      exact hnext
  | actionComplete =>
    cases hc : s.list.Uncomplete s.last.id with
    | error e => rfl
    | ok tl' => exact (Uncomplete_ok s.list s.last.id tl' hc).2
  | actionUncomplete =>
    cases hc : s.list.Complete s.last.id with
    | error e => rfl
    | ok tl' => exact (Complete_ok s.list s.last.id tl' hc).2
  | actionDelete =>
    cases s.last.deletedTodo with
    | none => rfl
    | some t0 => rfl

theorem applyOp_nextID_mono (s : AppState) (op : Op) :
    s.list.NextID ≤ (applyOp s op).list.NextID := by
  cases op with
  | add task priority dueDate tags now =>
    rw [applyOp_add_nextID]
    exact le_of_lt (lt_add_one _)
  | complete id => rw [applyOp_complete_nextID]
  | uncomplete id => rw [applyOp_uncomplete_nextID]
  | edit id newTask => rw [applyOp_edit_nextID]
  | delete id => rw [applyOp_delete_nextID]
  | clearCompleted => rw [applyOp_clearCompleted_nextID]
  | undo => rw [applyOp_undo_nextID]

theorem matchesOptions_all (sortBy sortOrder : String) (t : Todo) :
    matchesOptions ⟨"all", "", [], sortBy, sortOrder⟩ t = true := by
  simp [matchesOptions, toCanonicalPriority, strToLower]

theorem ListTodos_all_sorted (tl : TodoList) (sortBy sortOrder : String)
    (h : (sortBy != "") = true) :
    tl.ListTodos ⟨"all", "", [], sortBy, sortOrder⟩ =
      sortSlice (listLess ⟨"all", "", [], sortBy, sortOrder⟩) tl.Todos := by
  unfold TodoList.ListTodos
  rw [List.filter_eq_self.mpr (fun a _ => matchesOptions_all sortBy sortOrder a), if_pos h]

theorem charListLt_asymm (x y : List Char) (h : charListLt x y = true) :
    charListLt y x = false := by
  induction x generalizing y with
  | nil =>
    cases y with
    | nil => simp [charListLt] at h
    | cons b bs => rfl
  | cons a as ih =>
    cases y with
    | nil => simp [charListLt] at h
    | cons b bs =>
      simp only [charListLt] at h ⊢
      by_cases hab : a < b
      · rw [if_neg (lt_asymm hab), if_pos hab]
      · rw [if_neg hab] at h
        by_cases hba : b < a
        · rw [if_pos hba] at h
          cases h
        · rw [if_neg hba] at h
          rw [if_neg hba, if_neg hab]
          exact ih bs h

theorem charListLt_le_trans (x : List Char) :
    ∀ y z, charListLt y x = false → charListLt z y = false → charListLt z x = false := by
  induction x with
  | nil =>
    intro y z h1 h2
    cases z with
    | nil => rfl
    | cons c cs => rfl
  | cons a as ih =>
    intro y z h1 h2
    cases y with
    | nil => simp [charListLt] at h1
    | cons b bs =>
      cases z with
      | nil => simp [charListLt] at h2
      | cons c cs =>
        simp only [charListLt] at h1 h2 ⊢
        by_cases hba : b < a
        · rw [if_pos hba] at h1
          cases h1
        · rw [if_neg hba] at h1
          by_cases hcb : c < b
          · rw [if_pos hcb] at h2
            cases h2
          · rw [if_neg hcb] at h2
            by_cases hab : a < b
            · -- a < b and ¬(c < b) give a < c, hence ¬(c < a) and the goal closes early
              have hac : a < c := lt_of_lt_of_le hab (not_lt.mp hcb)
              rw [if_neg (lt_asymm hac), if_pos hac]
            · have heq : a = b := le_antisymm (not_lt.mp hba) (not_lt.mp hab)
              rw [if_neg hab] at h1
              by_cases hbc : b < c
              · have hac : a < c := heq ▸ hbc
                rw [if_neg (lt_asymm hac), if_pos hac]
              · have heq2 : b = c := le_antisymm (not_lt.mp hcb) (not_lt.mp hbc)
                rw [if_neg hbc] at h2
                have hca : ¬(c < a) := by rw [heq, heq2]; exact lt_irrefl c
                have hac : ¬(a < c) := by rw [heq, heq2]; exact lt_irrefl c
                rw [if_neg hca, if_neg hac]
                exact ih bs cs h1 h2

theorem strLt_asymm (x y : String) (h : strLt x y = true) : strLt y x = false :=
  charListLt_asymm x.data y.data h

theorem strLt_le_trans (x y z : String) (h1 : strLt y x = false) (h2 : strLt z y = false) :
    strLt z x = false :=
  charListLt_le_trans x.data y.data z.data h1 h2

theorem searchAux_eq_filter (lq : String) (l : List Todo) :
    searchAux lq l = l.filter
      (fun t => strContains (strToLower t.Task) lq ||
        t.Tags.any (fun tag => strContains (strToLower tag) lq)) := by
  induction l with
  | nil => rfl
  | cons t ts ih =>
    simp only [searchAux, List.filter_cons]
    by_cases h1 : strContains (strToLower t.Task) lq
    · simp [h1, ih]
    · by_cases h2 : t.Tags.any (fun tag => strContains (strToLower tag) lq)
      · simp [h1, h2, ih]
      · simp [h1, h2, ih]

/-- C2: persisting any collection built from in-core operations and loading
it back reproduces the identical collection — every record field and the
next-identifier counter round-trip exactly. -/
theorem c2_save_load_roundtrip (ops : List Op) :
    LoadFromFile ((runOps ops).list.SaveToFile) = .ok (runOps ops).list := by
  simp [TodoList.SaveToFile, LoadFromFile, decodeTodoList_encodeTodoList]

/-- C7: loading from a missing destination bootstraps a fresh empty
collection (no records, counter 1) without error, while a read failure or a
decode failure produces a Load error and no collection. -/
theorem c7_load_bootstrap_and_errors :
    LoadFromFile ReadResult.notExist = .ok { Todos := [], NextID := 1 } ∧
    (∃ e, LoadFromFile ReadResult.ioError = .error e) ∧
    (∀ j, decodeTodoList j = none → ∃ e, LoadFromFile (ReadResult.content j) = .error e) := by
  refine ⟨rfl, ⟨"failed to load todos", rfl⟩, fun j hj => ⟨"failed to parse todos", ?_⟩⟩
  simp [LoadFromFile, hj]

theorem c7_witness :
    decodeTodoList (Json.str "not a collection") = none ∧
    (∃ e, LoadFromFile (ReadResult.content (Json.str "not a collection")) = .error e) :=
  ⟨rfl, c7_load_bootstrap_and_errors.2.2 (Json.str "not a collection") rfl⟩

/-- C9: SearchTasks returns exactly the source records matching the query
(each included once, in source order — a sublist of the source, so no
duplication even when description and tags both match) collected into a
fresh collection whose counter is 1; the source collection is not touched
(the model operation is a pure function of it). -/
theorem c9_search_filter (tl : TodoList) (query : String) :
    tl.SearchTasks query =
      { Todos := tl.Todos.filter
          (fun t => strContains (strToLower t.Task) (strToLower query) ||
            t.Tags.any (fun tag => strContains (strToLower tag) (strToLower query))),
        NextID := 1 } ∧
    (tl.SearchTasks query).Todos.Sublist tl.Todos := by
  have h : tl.SearchTasks query =
      { Todos := tl.Todos.filter
          (fun t => strContains (strToLower t.Task) (strToLower query) ||
            t.Tags.any (fun tag => strContains (strToLower tag) (strToLower query))),
        NextID := 1 } := by
    unfold TodoList.SearchTasks
    rw [searchAux_eq_filter]
    rfl
  exact ⟨h, by rw [h]; exact List.filter_sublist tl.Todos⟩

/-- C5: Delete of a present identifier removes exactly the (first, hence
under the uniqueness invariant the only) record carrying it, preserves the
relative order of the remaining records and returns the removed record;
Delete of an absent identifier leaves the collection untouched and reports
the not-found error. -/
theorem c5_delete_spec (tl : TodoList) (id : Int) :
    ((∀ t ∈ tl.Todos, t.ID ≠ id) → tl.Delete id = .error (notFoundMsg id)) ∧
    (∀ pre t post, tl.Todos = pre ++ t :: post → (∀ u ∈ pre, u.ID ≠ id) → t.ID = id →
      tl.Delete id = .ok (t, { Todos := pre ++ post, NextID := tl.NextID })) := by
  constructor
  · intro h
    unfold TodoList.Delete
    rw [deleteAux_eq_none id tl.Todos h]
  · intro pre t post hl hpre ht
    unfold TodoList.Delete
    rw [hl, deleteAux_of_decomp id pre post t hpre ht]

theorem c5_witness :
    ((⟨[⟨1, "a", false, 0, "medium", none, []⟩, ⟨2, "b", false, 0, "low", none, []⟩],
        3⟩ : TodoList).Delete 2 =
      .ok (⟨2, "b", false, 0, "low", none, []⟩,
        { Todos := [⟨1, "a", false, 0, "medium", none, []⟩], NextID := 3 })) ∧
    ((⟨[⟨1, "a", false, 0, "medium", none, []⟩, ⟨2, "b", false, 0, "low", none, []⟩],
        3⟩ : TodoList).Delete 5 = .error (notFoundMsg 5)) :=
  ⟨(c5_delete_spec _ 2).2 [⟨1, "a", false, 0, "medium", none, []⟩]
      ⟨2, "b", false, 0, "low", none, []⟩ [] rfl (by decide) rfl,
   (c5_delete_spec _ 5).1 (by decide)⟩

theorem listLess_due_asc (a b : Todo) :
    listLess ⟨"all", "", [], "due_date", "asc"⟩ a b =
      match a.DueDate, b.DueDate with
      | none, none => false
      | none, some _ => false
      | some _, none => true
      | some x, some y => decide (x < y) := rfl

theorem listLess_due_desc (a b : Todo) :
    listLess ⟨"all", "", [], "due_date", "desc"⟩ a b =
      match a.DueDate, b.DueDate with
      | none, none => false
      | none, some _ => false
      | some _, none => true
      | some x, some y => decide (y < x) := rfl

theorem listLess_priority_asc (a b : Todo) :
    listLess ⟨"all", "", [], "priority", "asc"⟩ a b =
      strLt (strToLower a.Priority) (strToLower b.Priority) := rfl

theorem listLess_priority_desc (a b : Todo) :
    listLess ⟨"all", "", [], "priority", "desc"⟩ a b =
      !(strLt (strToLower a.Priority) (strToLower b.Priority)) := rfl

/-- C3: sorting by due date, in both directions, yields a permutation of the
records in which every dated record precedes every undated one, with the
dated records in chronological order ascending and in reverse chronological
order descending (the absent-due-date records sort last regardless of
direction). -/
theorem c3_due_date_sort (tl : TodoList) :
    ((tl.ListTodos ⟨"all", "", [], "due_date", "asc"⟩).Perm tl.Todos ∧
     (tl.ListTodos ⟨"all", "", [], "due_date", "asc"⟩).Pairwise (fun a b =>
       (a.DueDate = none → b.DueDate = none) ∧
       (∀ x y, a.DueDate = some x → b.DueDate = some y → x ≤ y))) ∧
    ((tl.ListTodos ⟨"all", "", [], "due_date", "desc"⟩).Perm tl.Todos ∧
     (tl.ListTodos ⟨"all", "", [], "due_date", "desc"⟩).Pairwise (fun a b =>
       (a.DueDate = none → b.DueDate = none) ∧
       (∀ x y, a.DueDate = some x → b.DueDate = some y → y ≤ x))) := by
  rw [ListTodos_all_sorted tl "due_date" "asc" rfl, ListTodos_all_sorted tl "due_date" "desc" rfl]
  refine ⟨⟨sortSlice_perm _ _, ?_⟩, ⟨sortSlice_perm _ _, ?_⟩⟩
  · refine sortSlice_pairwise _ _ ?_ ?_ ?_ _
    · intro a b hab
      rw [listLess_due_asc] at hab
      constructor
      · intro ha
        cases hb : b.DueDate with
        | none => rfl
        | some y => rw [hb, ha] at hab; cases hab
      · intro x y hx hy
        rw [hy, hx] at hab
        exact not_lt.mp (of_decide_eq_false hab)
    · intro a b hab
      rw [listLess_due_asc] at hab
      constructor
      · intro hb
        cases ha : a.DueDate with
        | none => rfl
        | some x => rw [hb, ha] at hab; cases hab
      · intro x y hx hy
        rw [hx, hy] at hab
        exact le_of_lt (of_decide_eq_true hab)
    · rintro a b c ⟨h1a, h1b⟩ ⟨h2a, h2b⟩
      constructor
      · exact fun ha => h2a (h1a ha)
      · intro x z hx hz
        cases hb : b.DueDate with
        | none => rw [h2a hb] at hz; cases hz
        | some y => exact le_trans (h1b x y hx hb) (h2b y z hb hz)
  · refine sortSlice_pairwise _ _ ?_ ?_ ?_ _
    · intro a b hab
      rw [listLess_due_desc] at hab
      constructor
      · intro ha
        cases hb : b.DueDate with
        | none => rfl
        | some y => rw [hb, ha] at hab; cases hab
      · intro x y hx hy
        rw [hy, hx] at hab
        exact not_lt.mp (of_decide_eq_false hab)
    · intro a b hab
      rw [listLess_due_desc] at hab
      constructor
      · intro hb
        cases ha : a.DueDate with
        | none => rfl
        | some x => rw [hb, ha] at hab; cases hab
      · intro x y hx hy
        rw [hx, hy] at hab
        exact le_of_lt (of_decide_eq_true hab)
    · rintro a b c ⟨h1a, h1b⟩ ⟨h2a, h2b⟩
      constructor
      · exact fun ha => h2a (h1a ha)
      · intro x z hx hz
        cases hb : b.DueDate with
        | none => rw [h2a hb] at hz; cases hz
        | some y => exact le_trans (h2b y z hb hz) (h1b x y hx hb)

/-- C8: sorting by priority in ascending direction orders records by
case-insensitive lexicographic comparison of the priority string (so
`"high"` sorts before `"low"` before `"medium"`, not a severity order), and
descending direction reverses that lexicographic order; witnessed also on a
concrete list with one record of each canonical priority. -/
theorem c8_priority_sort (tl : TodoList) :
    ((tl.ListTodos ⟨"all", "", [], "priority", "asc"⟩).Perm tl.Todos ∧
     (tl.ListTodos ⟨"all", "", [], "priority", "asc"⟩).Pairwise (fun a b =>
       strLt (strToLower b.Priority) (strToLower a.Priority) = false)) ∧
    ((tl.ListTodos ⟨"all", "", [], "priority", "desc"⟩).Perm tl.Todos ∧
     (tl.ListTodos ⟨"all", "", [], "priority", "desc"⟩).Pairwise (fun a b =>
       strLt (strToLower a.Priority) (strToLower b.Priority) = false)) ∧
    strLt "high" "low" = true ∧ strLt "low" "medium" = true ∧
    (TodoList.ListTodos
        ⟨[⟨1, "a", false, 0, "medium", none, []⟩, ⟨2, "b", false, 0, "low", none, []⟩,
          ⟨3, "c", false, 0, "high", none, []⟩], 4⟩
        ⟨"all", "", [], "priority", "asc"⟩).map (·.Priority) = ["high", "low", "medium"] := by
  rw [ListTodos_all_sorted tl "priority" "asc" rfl,
    ListTodos_all_sorted tl "priority" "desc" rfl]
  refine ⟨⟨sortSlice_perm _ _, ?_⟩, ⟨sortSlice_perm _ _, ?_⟩, by decide, by decide, by decide⟩
  · refine sortSlice_pairwise _ _ ?_ ?_ ?_ _
    · intro a b hab
      rw [listLess_priority_asc] at hab
      exact hab
    · intro a b hab
      rw [listLess_priority_asc] at hab
      exact strLt_asymm _ _ hab
    · intro a b c h1 h2
      exact strLt_le_trans _ _ _ h1 h2
  · refine sortSlice_pairwise _ _ ?_ ?_ ?_ _
    · intro a b hab
      rw [listLess_priority_desc] at hab
      simp only [Bool.not_eq_eq_eq_not, Bool.not_false] at hab
      exact strLt_asymm _ _ hab
    · intro a b hab
      rw [listLess_priority_desc] at hab
      simp only [Bool.not_eq_eq_eq_not, Bool.not_true] at hab
      exact hab
    · intro a b c h1 h2
      exact strLt_le_trans _ _ _ h2 h1

/-- C10: editing the description of the record with a present identifier
changes only that record's Task field: the sequence length, the order, the
counter, and the identifier/completion/creation/priority/due-date/tag data
of every record are unchanged. -/
theorem c10_editTask_frame (tl : TodoList) (id : Int) (newTask : String)
    (pre : List Todo) (t : Todo) (post : List Todo)
    (hl : tl.Todos = pre ++ t :: post) (hpre : ∀ u ∈ pre, u.ID ≠ id) (ht : t.ID = id) :
    tl.EditTask id newTask =
      .ok { Todos := pre ++ { t with Task := newTask } :: post, NextID := tl.NextID } ∧
    (pre ++ { t with Task := newTask } :: post).length = tl.Todos.length ∧
    (pre ++ { t with Task := newTask } :: post).map (·.ID) = tl.Todos.map (·.ID) ∧
    (pre ++ { t with Task := newTask } :: post).map (·.Completed) =
      tl.Todos.map (·.Completed) ∧
    (pre ++ { t with Task := newTask } :: post).map (·.CreatedAt) =
      tl.Todos.map (·.CreatedAt) ∧
    (pre ++ { t with Task := newTask } :: post).map (·.Priority) =
      tl.Todos.map (·.Priority) ∧
    (pre ++ { t with Task := newTask } :: post).map (·.DueDate) =
      tl.Todos.map (·.DueDate) ∧
    (pre ++ { t with Task := newTask } :: post).map (·.Tags) = tl.Todos.map (·.Tags) := by
  refine ⟨?_, by simp [hl], by simp [hl], by simp [hl], by simp [hl], by simp [hl],
    by simp [hl], by simp [hl]⟩
  unfold TodoList.EditTask
  rw [hl, editAux_of_decomp id newTask pre post t hpre ht]

theorem c10_witness :
    (⟨[⟨1, "a", false, 0, "medium", none, []⟩, ⟨2, "b", true, 5, "low", some 7, ["x"]⟩],
        3⟩ : TodoList).EditTask 2 "" =
      .ok { Todos := [⟨1, "a", false, 0, "medium", none, []⟩,
              ⟨2, "", true, 5, "low", some 7, ["x"]⟩], NextID := 3 } :=
  (c10_editTask_frame _ 2 "" [⟨1, "a", false, 0, "medium", none, []⟩]
    ⟨2, "b", true, 5, "low", some 7, ["x"]⟩ [] rfl (by decide) rfl).1

/-- C6: undo immediately after a successful delete appends the stored copy
of the deleted record (all fields, including the original identifier,
unchanged) to the end of the live sequence rather than restoring its
position; in the concrete scenario Add "A"; Add "B"; Delete 1; Undo, the
record with task "A" and identifier 1 ends up after "B", out of numeric
order. -/
theorem c6_undo_after_delete (s : AppState) (id : Int) (t : Todo) (tl' : TodoList)
    (h : s.list.Delete id = .ok (t, tl')) :
    (applyOp (applyOp s (.delete id)) .undo).list.Todos = tl'.Todos ++ [t] ∧
    (applyOp (applyOp s (.delete id)) .undo).list.NextID = tl'.NextID ∧
    t.ID = id ∧ t ∈ s.list.Todos ∧
    (runOps [Op.add "A" "medium" none [] 0, Op.add "B" "medium" none [] 1,
        Op.delete 1, Op.undo]).list.Todos =
      [⟨2, "B", false, 1, "medium", none, []⟩, ⟨1, "A", false, 0, "medium", none, []⟩] := by
  obtain ⟨pre, post, hl, _, _, hid, _⟩ := Delete_ok s.list id t tl' h
  have hstep : applyOp s (.delete id) =
      { list := tl',
        last := { actType := .actionDelete, id := id, deletedTodo := some t,
                  previousCompletedStatus := false } } := by
    simp [applyOp, h]
  rw [hstep]
  refine ⟨rfl, rfl, hid, ?_, by decide⟩
  rw [hl]
  exact List.mem_append_right pre (List.mem_cons_self t post)

theorem c6_witness :
    (applyOp (applyOp (runOps [Op.add "A" "medium" none [] 0, Op.add "B" "medium" none [] 1])
        (.delete 1)) .undo).list.Todos =
      (⟨[⟨2, "B", false, 1, "medium", none, []⟩], 3⟩ : TodoList).Todos ++
        [⟨1, "A", false, 0, "medium", none, []⟩] :=
  (c6_undo_after_delete (runOps [Op.add "A" "medium" none [] 0, Op.add "B" "medium" none [] 1])
    1 ⟨1, "A", false, 0, "medium", none, []⟩ ⟨[⟨2, "B", false, 1, "medium", none, []⟩], 3⟩
    (by rfl)).1

/-- C1: in every state reachable by interactive operation sequences from
the empty collection, identifiers are pairwise distinct and strictly below
the next-identifier counter; one further step never decreases the counter;
an Add from the reached state appends a record carrying exactly the current
counter value and bumps the counter by one, while
complete/uncomplete/edit/delete/clear-completed/undo all leave the counter
unchanged — so successive Adds assign consecutive identifiers and a deleted
identifier (being below the counter) is never reassigned. -/
theorem c1_identifier_invariants (ops : List Op) :
    (idsOf (runOps ops).list).Nodup ∧
    (∀ t ∈ (runOps ops).list.Todos, t.ID < (runOps ops).list.NextID) ∧
    (∀ op : Op, (runOps ops).list.NextID ≤ (applyOp (runOps ops) op).list.NextID) ∧
    (∀ task priority dueDate tags now,
      (applyOp (runOps ops) (.add task priority dueDate tags now)).list.Todos =
        (runOps ops).list.Todos ++
          [⟨(runOps ops).list.NextID, task, false, now,
            if isValidPriority (toCanonicalPriority priority) then toCanonicalPriority priority
            else "medium", dueDate, tags⟩] ∧
      (applyOp (runOps ops) (.add task priority dueDate tags now)).list.NextID =
        (runOps ops).list.NextID + 1) ∧
    (∀ id, (applyOp (runOps ops) (.complete id)).list.NextID = (runOps ops).list.NextID) ∧
    (∀ id, (applyOp (runOps ops) (.uncomplete id)).list.NextID = (runOps ops).list.NextID) ∧
    (∀ id newTask,
      (applyOp (runOps ops) (.edit id newTask)).list.NextID = (runOps ops).list.NextID) ∧
    (∀ id, (applyOp (runOps ops) (.delete id)).list.NextID = (runOps ops).list.NextID) ∧
    (applyOp (runOps ops) .clearCompleted).list.NextID = (runOps ops).list.NextID ∧
    (applyOp (runOps ops) .undo).list.NextID = (runOps ops).list.NextID := by
  obtain ⟨hnd, hbd, _⟩ := inv_runOps ops
  exact ⟨hnd, hbd, fun op => applyOp_nextID_mono _ op,
    fun task priority dueDate tags now =>
      ⟨applyOp_add_todos _ task priority dueDate tags now,
       applyOp_add_nextID _ task priority dueDate tags now⟩,
    fun id => applyOp_complete_nextID _ id,
    fun id => applyOp_uncomplete_nextID _ id,
    fun id newTask => applyOp_edit_nextID _ id newTask,
    fun id => applyOp_delete_nextID _ id,
    applyOp_clearCompleted_nextID _, applyOp_undo_nextID _⟩

/-- C4 (counterexample): in the concrete scenario Add "Buy milk"; Add "Ship
release"; Complete 1; ClearCompleted; the subsequent Undo does NOT report
"nothing to undo" — the tracker still holds the Complete action, because
clear-completed neither sets nor clears it. -/
theorem c4_counterexample :
    (applyUndo (applyOp
        (runOps [Op.add "Buy milk" "low" none [] 0,
          Op.add "Ship release" "high" (some 20241225) ["work", "urgent"] 1,
          Op.complete 1])
        Op.clearCompleted)).2 ≠ UndoOutcome.nothingToUndo := by decide

/-- C4 (amended): start empty; Add "Buy milk" (low, no due date, no tags);
Add "Ship release" (high, due date, tags work/urgent); Complete 1; then
listing the incomplete records returns exactly record 2, ClearCompleted
removes record 1 reporting 1 removed, and the subsequent Undo attempts to
undo the still-tracked Complete 1 — which fails with not-found because
record 1 was cleared — reporting a failed undo of record 1 rather than
"nothing to undo". -/
theorem c4_scenario :
    (runOps [Op.add "Buy milk" "low" none [] 0,
        Op.add "Ship release" "high" (some 20241225) ["work", "urgent"] 1,
        Op.complete 1]).list.ListTodos ⟨"incomplete", "", [], "", ""⟩ =
      [⟨2, "Ship release", false, 1, "high", some 20241225, ["work", "urgent"]⟩] ∧
    ((runOps [Op.add "Buy milk" "low" none [] 0,
        Op.add "Ship release" "high" (some 20241225) ["work", "urgent"] 1,
        Op.complete 1]).list.ClearCompleted).2 = 1 ∧
    (applyUndo (applyOp
        (runOps [Op.add "Buy milk" "low" none [] 0,
          Op.add "Ship release" "high" (some 20241225) ["work", "urgent"] 1,
          Op.complete 1])
        Op.clearCompleted)).2 = UndoOutcome.undoCompleteFailed 1 := by decide
